/-
Verification of the anagram grouping program (anagrams.py).

The program is a single linear pipeline: tokenize a word list, filter
tokens by minimum length and an optional no-capitalized-words rule,
attach to each surviving token the string of its (optionally lowercased)
characters sorted ascending by code point, sort the resulting records by
that signature string, and finally sweep the sorted sequence once to
write blocks of words sharing a signature.

The Lean development below is a shallow embedding of that pipeline.
Words are Lean `String`s; Python's stable `list.sort(cmp=...)` with a
comparator that compares the signature strings is modelled by Mathlib's
stable `List.insertionSort` over the corresponding `≤` on signatures
(a stable comparison sort's output is uniquely determined by the key
order and the input order, so any stable sort is a faithful model).
Python's per-character `str.lower`/`str.isupper`/`sorted` semantics
coincide with Lean's `Char.toLower`/`Char.isUpper`/code-point order on
the ASCII inputs the program is documented for.
-/
import Mathlib

namespace Anagrams

/-- The configuration carried by the command-line flags that the core
pipeline consults: `--minletters`, `--ignore-capitals` and
`--exclude-capitals`. -/
structure Config where
  minLetters : Nat
  ignoreCapitals : Bool
  excludeCapitals : Bool
deriving DecidableEq, Repr

/-- Characters of a string sorted ascending by code point: the model of
`string.join(sorted(word_to_sort), "")` in `anagram_word.__init__`. -/
def sortLetters (s : String) : String :=
  String.mk (List.insertionSort (fun a b : Char => a ≤ b) s.toList)

/-- Per-character lowercasing, the model of Python's `str.lower()`
(ASCII range; `Char.toLower` maps `'A'-'Z'` and fixes the rest). -/
def lowerStr (s : String) : String :=
  String.mk (s.toList.map Char.toLower)

/-- The record held for each surviving word: the original text
(`self.word`) and the cached signature (`self.word_sorted`), exactly the
two fields `anagram_word.__init__` stores.  (`self.len` is the length of
`word` and is kept implicit: `String.length` recovers it.) -/
structure AnagramWord where
  word : String
  wordSorted : String
deriving DecidableEq, Repr

/-- The constructor `anagram_word.__init__`: lowercase the text first
when `ignore_capitals` is set, then sort the characters. -/
def anagramWordMk (ignoreCapitals : Bool) (w : String) : AnagramWord :=
  { word := w
    wordSorted := sortLetters (if ignoreCapitals then lowerStr w else w) }

/-- `anagram_word.is_anagram_of`: equality of the cached signatures. -/
def isAnagramOf (a b : AnagramWord) : Bool :=
  a.wordSorted == b.wordSorted

/-- Python-2 `cmp` on strings, as character lists: three-way
lexicographic comparison by code point, shorter prefix first. -/
def cmpChars : List Char → List Char → Int
  | [], [] => 0
  | [], _ :: _ => -1
  | _ :: _, [] => 1
  | a :: as, b :: bs =>
    if a < b then -1 else if b < a then 1 else cmpChars as bs

/-- `anagram_word.compare`: `cmp(word1.word_sorted, word2.word_sorted)`
(-1, 0 or 1). -/
def compareWords (a b : AnagramWord) : Int :=
  cmpChars a.wordSorted.toList b.wordSorted.toList

/-- The key order of `anagram_words.sort(cmp=anagram_word.compare)`:
`a` may precede `b` exactly when the comparator is non-positive. -/
def sigLe (a b : AnagramWord) : Prop :=
  compareWords a b ≤ 0

instance : DecidableRel sigLe :=
  fun a b => inferInstanceAs (Decidable (compareWords a b ≤ 0))

/-- First character uppercase, the model of `word[0].isupper()`.
(On the empty string — unreachable behind the length filter for any
validated configuration — it returns `false`.) -/
def firstIsUpper (w : String) : Bool :=
  match w.toList with
  | [] => false
  | c :: _ => c.isUpper

/-- The filter loop's keep-condition: a token is skipped when its length
is below `min_letters`, or when `exclude_capitals` is set and its first
character is uppercase; otherwise it is kept. -/
def keep (cfg : Config) (w : String) : Bool :=
  if w.length < cfg.minLetters then false
  else if cfg.excludeCapitals && firstIsUpper w then false
  else true

/-- The filter loop: keep the eligible tokens, in order, and build an
`anagram_word` from each. -/
def buildWords (cfg : Config) (tokens : List String) : List AnagramWord :=
  (tokens.filter (keep cfg)).map (anagramWordMk cfg.ignoreCapitals)

/-- `anagram_words.sort(cmp=anagram_word.compare)`: Python's stable sort
under the signature comparator, modelled by the stable
`List.insertionSort` over `sigLe`. -/
def sortWords (l : List AnagramWord) : List AnagramWord :=
  List.insertionSort sigLe l

/-- The output sweep (the `for ang_word in anagram_words` loop),
translated statement by statement.  State: `theword` is the word the
current block compares against, `newword` records whether the current
block has had nothing written yet.  A matching word either opens the
block's line (printing `theword`, a separator and the match) or extends
it; a mismatching word closes an opened line with a newline and becomes
the new comparison word with nothing written for it. -/
def sweep : AnagramWord → Bool → List AnagramWord → String
  | _, _, [] => ""
  | theword, newword, w :: rest =>
    if isAnagramOf w theword then
      (if newword then theword.word ++ ", " ++ w.word else ", " ++ w.word)
        ++ sweep theword false rest
    else
      (if newword then "" else "\n") ++ sweep w true rest

/-- The empty word `anagram_word()` that seeds the sweep. -/
def sentinel (cfg : Config) : AnagramWord :=
  anagramWordMk cfg.ignoreCapitals ""

/-- Everything the sweep writes to the output buffer, for a given token
list: filter, build, sort, then sweep from the sentinel state. -/
def anagramsOutput (cfg : Config) (tokens : List String) : String :=
  sweep (sentinel cfg) true (sortWords (buildWords cfg tokens))

/-- The program around the sweep: the `min_letters` validation at the
top (`raise Exception(...)` when below two) happens before the word list
is consulted; only the success branch looks at the tokens. -/
def runProgram (cfg : Config) (tokens : List String) : Except String String :=
  if cfg.minLetters < 2 then
    Except.error "The minimum number of letters must be at least two."
  else
    Except.ok (anagramsOutput cfg tokens)

/-
Specification-side definitions, used to characterize what the sweep
emits: the maximal blocks of adjacent equal-signature words, the line a
block would print, and the full text the sweep writes.
-/

/-- The maximal blocks of adjacent words sharing a signature.  Built by
a right fold: a word either joins the block in front of it (when it is
an anagram of that block's first word) or opens a block of its own.
(The `[] :: gs` branch is unreachable: blocks are never empty.) -/
def runs : List AnagramWord → List (List AnagramWord)
  | [] => []
  | a :: l =>
    match runs l with
    | [] => [[a]]
    | [] :: gs => [a] :: [] :: gs
    | (b :: g) :: gs =>
      if isAnagramOf a b then (a :: b :: g) :: gs else [a] :: (b :: g) :: gs

/-- Concatenation of a list of strings. -/
def concatAll : List String → String
  | [] => ""
  | s :: rest => s ++ concatAll rest

/-- The line printed for a block: its words joined by the two-character
separator `", "`, in sequence order. -/
def lineOf : List AnagramWord → String
  | [] => ""
  | a :: t => a.word ++ concatAll (t.map (fun w => ", " ++ w.word))

/-- What the sweep writes, block by block: a block of at least two
words prints its line, followed by a newline exactly when any block
comes after it; a lone word prints nothing at all. -/
def outRuns : List (List AnagramWord) → String
  | [] => ""
  | g :: gs =>
    if 2 ≤ g.length then
      lineOf g ++ (if gs = [] then "" else "\n") ++ outRuns gs
    else
      outRuns gs

/-- The blocks the sweep actually prints: those of at least two words. -/
def emittedGroups (l : List AnagramWord) : List (List AnagramWord) :=
  (runs l).filter (fun g => 2 ≤ g.length)

/-
Properties of the three-way comparator: it is the strict lexicographic
order on character lists, read off through the sign.
-/

theorem cmpChars_eq_zero_iff : ∀ s t : List Char, cmpChars s t = 0 ↔ s = t
  | [], [] => by simp [cmpChars]
  | [], _ :: _ => by simp [cmpChars]
  | _ :: _, [] => by simp [cmpChars]
  | a :: as, b :: bs => by
    simp only [cmpChars]
    split_ifs with h1 h2
    · simp only [List.cons.injEq]
      exact iff_of_false (by norm_num) (fun h => absurd h.1 (ne_of_lt h1))
    · simp only [List.cons.injEq]
      exact iff_of_false (by norm_num) (fun h => absurd h.1.symm (ne_of_lt h2))
    · have hab : a = b := le_antisymm (not_lt.mp h2) (not_lt.mp h1)
      subst hab
      rw [cmpChars_eq_zero_iff as bs]
      simp

theorem cmpChars_neg_iff :
    ∀ s t : List Char, cmpChars s t = -1 ↔ List.Lex (· < ·) s t
  | [], [] => by
    simp only [cmpChars]
    exact iff_of_false (by norm_num) (List.Lex.not_nil_right _ _)
  | [], b :: bs => by
    simp only [cmpChars]
    exact iff_of_true (by trivial) List.Lex.nil
  | a :: as, [] => by
    simp only [cmpChars]
    exact iff_of_false (by norm_num) (List.Lex.not_nil_right _ _)
  | a :: as, b :: bs => by
    simp only [cmpChars]
    split_ifs with h1 h2
    · exact iff_of_true rfl (List.Lex.rel h1)
    · refine iff_of_false (by norm_num) (fun h => ?_)
      cases h with
      | cons h => exact absurd h2 (lt_irrefl _)
      | rel h => exact absurd h h1
    · have hab : a = b := le_antisymm (not_lt.mp h2) (not_lt.mp h1)
      subst hab
      rw [cmpChars_neg_iff as bs]
      exact (List.Lex.cons_iff).symm

theorem cmpChars_range :
    ∀ s t : List Char, cmpChars s t = -1 ∨ cmpChars s t = 0 ∨ cmpChars s t = 1
  | [], [] => by simp [cmpChars]
  | [], _ :: _ => by simp [cmpChars]
  | _ :: _, [] => by simp [cmpChars]
  | a :: as, b :: bs => by
    simp only [cmpChars]
    split_ifs
    · exact Or.inl rfl
    · exact Or.inr (Or.inr rfl)
    · exact cmpChars_range as bs

theorem cmpChars_le_iff (s t : List Char) :
    cmpChars s t ≤ 0 ↔ (List.Lex (· < ·) s t ∨ s = t) := by
  rw [← cmpChars_neg_iff, ← cmpChars_eq_zero_iff]
  rcases cmpChars_range s t with h | h | h <;> rw [h] <;> norm_num

/-
`sigLe` is a total preorder whose induced equality is equality of the
signature strings.
-/

theorem sigLe_iff (a b : AnagramWord) :
    sigLe a b ↔
      (List.Lex (· < ·) a.wordSorted.toList b.wordSorted.toList ∨
        a.wordSorted = b.wordSorted) := by
  rw [sigLe, compareWords, cmpChars_le_iff, String.toList_inj]

theorem sigLe_total (a b : AnagramWord) : sigLe a b ∨ sigLe b a := by
  rw [sigLe_iff, sigLe_iff]
  rcases trichotomous_of (List.Lex (fun x y : Char => x < y))
      a.wordSorted.toList b.wordSorted.toList with h | h | h
  · exact Or.inl (Or.inl h)
  · exact Or.inl (Or.inr (String.toList_inj.mp h))
  · exact Or.inr (Or.inl h)

theorem sigLe_trans (a b c : AnagramWord) :
    sigLe a b → sigLe b c → sigLe a c := by
  rw [sigLe_iff, sigLe_iff, sigLe_iff]
  rintro (h1 | h1) (h2 | h2)
  · exact Or.inl (trans_of (List.Lex (· < ·)) h1 h2)
  · rw [← h2]
    exact Or.inl h1
  · rw [h1]
    exact Or.inl h2
  · rw [h1, h2]
    exact Or.inr rfl

theorem sigLe_antisymm (a b : AnagramWord) :
    sigLe a b → sigLe b a → a.wordSorted = b.wordSorted := by
  rw [sigLe_iff, sigLe_iff]
  rintro (h1 | h1) (h2 | h2)
  · exact absurd h2 (asymm_of (List.Lex (fun x y : Char => x < y)) h1)
  · exact h2.symm
  · exact h1
  · exact h1

theorem sigLe_of_eq_left {a b c : AnagramWord}
    (h : a.wordSorted = b.wordSorted) (hbc : sigLe b c) : sigLe a c := by
  rw [sigLe, compareWords, h]
  exact hbc

theorem sigLe_of_eq_right {a b c : AnagramWord}
    (h : b.wordSorted = c.wordSorted) (hab : sigLe a b) : sigLe a c := by
  rw [sigLe, compareWords, ← h]
  exact hab

/-
Signature computation facts: the cached signature is a sorted
permutation of the (optionally lowercased) text, of the same length.
-/

theorem sortLetters_toList (s : String) :
    (sortLetters s).toList =
      List.insertionSort (fun a b : Char => a ≤ b) s.toList := rfl

theorem sortLetters_length (s : String) :
    (sortLetters s).length = s.length := by
  show (List.insertionSort (fun a b : Char => a ≤ b) s.toList).length = s.length
  rw [List.length_insertionSort]
  rfl

theorem lowerStr_length (s : String) : (lowerStr s).length = s.length := by
  show (s.toList.map Char.toLower).length = s.length
  rw [List.length_map]
  rfl

theorem anagramWordMk_word (ic : Bool) (w : String) :
    (anagramWordMk ic w).word = w := rfl

theorem anagramWordMk_wordSorted (ic : Bool) (w : String) :
    (anagramWordMk ic w).wordSorted =
      sortLetters (if ic then lowerStr w else w) := rfl

theorem wordSorted_length (ic : Bool) (w : String) :
    (anagramWordMk ic w).wordSorted.length = w.length := by
  cases ic <;>
    simp [anagramWordMk_wordSorted, sortLetters_length, lowerStr_length]

theorem wordSorted_ne_empty {ic : Bool} {w : String} (h : 0 < w.length) :
    (anagramWordMk ic w).wordSorted ≠ "" := by
  intro he
  have hl := wordSorted_length ic w
  rw [he] at hl
  simp only [String.length_empty] at hl
  omega

/-
Filter facts.
-/

theorem keep_eq_true_iff (cfg : Config) (w : String) :
    keep cfg w = true ↔
      cfg.minLetters ≤ w.length ∧
        (cfg.excludeCapitals && firstIsUpper w) = false := by
  unfold keep
  split_ifs with h1 h2
  · simp only [Bool.false_eq_true, false_iff, not_and]
    intro hle
    omega
  · simp only [Bool.false_eq_true, false_iff, not_and]
    intro _
    simp [h2]
  · simp only [true_iff]
    refine ⟨by omega, by simpa using h2⟩

theorem keep_ignores_ignoreCapitals (cfg : Config) (b : Bool) (w : String) :
    keep ⟨cfg.minLetters, b, cfg.excludeCapitals⟩ w = keep cfg w := rfl

theorem mem_buildWords {cfg : Config} {tokens : List String}
    {w : AnagramWord} :
    w ∈ buildWords cfg tokens ↔
      ∃ t, t ∈ tokens ∧ keep cfg t = true ∧
        w = anagramWordMk cfg.ignoreCapitals t := by
  constructor
  · intro h
    rcases List.mem_map.mp h with ⟨t, ht, he⟩
    rcases List.mem_filter.mp ht with ⟨ht1, ht2⟩
    exact ⟨t, ht1, ht2, he.symm⟩
  · rintro ⟨t, ht1, ht2, rfl⟩
    exact List.mem_map.mpr ⟨t, List.mem_filter.mpr ⟨ht1, ht2⟩, rfl⟩

theorem sig_ne_empty_of_mem {cfg : Config} {tokens : List String}
    (h2 : 2 ≤ cfg.minLetters) {w : AnagramWord}
    (hw : w ∈ buildWords cfg tokens) : w.wordSorted ≠ "" := by
  rcases mem_buildWords.mp hw with ⟨t, _, hk, rfl⟩
  have hlen := ((keep_eq_true_iff cfg t).mp hk).1
  exact wordSorted_ne_empty (by omega)

/-
Sorting facts.
-/

theorem sortWords_sorted (l : List AnagramWord) :
    (sortWords l).Sorted sigLe := by
  haveI : IsTotal AnagramWord sigLe := ⟨sigLe_total⟩
  haveI : IsTrans AnagramWord sigLe := ⟨sigLe_trans⟩
  exact List.sorted_insertionSort sigLe l

theorem sortWords_perm (l : List AnagramWord) : (sortWords l).Perm l :=
  List.perm_insertionSort sigLe l

theorem mem_sortWords {l : List AnagramWord} {w : AnagramWord} :
    w ∈ sortWords l ↔ w ∈ l :=
  (sortWords_perm l).mem_iff

/-
Anagram-relation basics.
-/

theorem isAnagramOf_iff (a b : AnagramWord) :
    isAnagramOf a b = true ↔ a.wordSorted = b.wordSorted := by
  simp [isAnagramOf]

theorem isAnagramOf_comm (a b : AnagramWord) :
    isAnagramOf a b = isAnagramOf b a := by
  by_cases h : a.wordSorted = b.wordSorted
  · simp [isAnagramOf, h]
  · simp [isAnagramOf, h, Ne.symm h]

/-
The block decomposition: `runs` splits a list after each word whose
successor has a different signature, which is the same splitting the
sweep performs against the first word of the current block.
-/

theorem runs_cons_eq :
    ∀ (l : List AnagramWord) (a : AnagramWord),
      runs (a :: l) =
        (a :: l.takeWhile (fun w => isAnagramOf w a)) ::
          runs (l.dropWhile (fun w => isAnagramOf w a))
  | [], a => by simp [runs]
  | b :: t, a => by
    have ih := runs_cons_eq t b
    by_cases hab : isAnagramOf a b = true
    · have hab' : a.wordSorted = b.wordSorted := (isAnagramOf_iff a b).mp hab
      have hba : isAnagramOf b a = true := by
        rw [← isAnagramOf_comm]
        exact hab
      have hpred :
          (fun w => isAnagramOf w a) = (fun w => isAnagramOf w b) := by
        funext w
        simp [isAnagramOf, hab']
      rw [List.takeWhile_cons, List.dropWhile_cons]
      simp only [hba, if_true, hpred]
      rw [runs]
      rw [ih]
      simp [hab]
    · have hba : isAnagramOf b a = false := by
        rw [← isAnagramOf_comm]
        simpa using hab
      rw [List.takeWhile_cons, List.dropWhile_cons]
      simp only [hba, Bool.false_eq_true, if_false]
      rw [runs]
      rw [ih]
      simp [hab]

theorem runs_flatten : ∀ l : List AnagramWord, (runs l).flatten = l
  | [] => by simp [runs]
  | a :: t => by
    rw [runs_cons_eq]
    have hd :
        (t.dropWhile (fun w => isAnagramOf w a)).length ≤ t.length :=
      (List.dropWhile_sublist _).length_le
    rw [List.flatten_cons,
      runs_flatten (t.dropWhile (fun w => isAnagramOf w a))]
    simp [List.takeWhile_append_dropWhile]
termination_by l => l.length
decreasing_by
  simp only [List.length_cons]
  omega

theorem runs_ne_nil :
    ∀ (l : List AnagramWord) (g : List AnagramWord), g ∈ runs l → g ≠ []
  | [], g => by simp [runs]
  | a :: t, g => by
    rw [runs_cons_eq]
    intro hg
    rcases List.mem_cons.mp hg with h | h
    · rw [h]
      exact List.cons_ne_nil _ _
    · have hd :
          (t.dropWhile (fun w => isAnagramOf w a)).length ≤ t.length :=
        (List.dropWhile_sublist _).length_le
      exact runs_ne_nil (t.dropWhile (fun w => isAnagramOf w a)) g h
termination_by l => l.length
decreasing_by
  simp only [List.length_cons]
  omega

theorem runs_sig_of_mem :
    ∀ (l : List AnagramWord) (g : List AnagramWord), g ∈ runs l →
      ∀ x ∈ g, ∀ y ∈ g, x.wordSorted = y.wordSorted
  | [], g => by simp [runs]
  | a :: t, g => by
    rw [runs_cons_eq]
    intro hg
    rcases List.mem_cons.mp hg with h | h
    · subst h
      have hall :
          ∀ x ∈ a :: t.takeWhile (fun w => isAnagramOf w a),
            x.wordSorted = a.wordSorted := by
        intro x hx
        rcases List.mem_cons.mp hx with hx | hx
        · rw [hx]
        · have hpx : isAnagramOf x a = true := by
            simpa using List.mem_takeWhile_imp hx
          exact (isAnagramOf_iff x a).mp hpx
      intro x hx y hy
      rw [hall x hx, hall y hy]
    · have hd :
          (t.dropWhile (fun w => isAnagramOf w a)).length ≤ t.length :=
        (List.dropWhile_sublist _).length_le
      exact runs_sig_of_mem (t.dropWhile (fun w => isAnagramOf w a)) g h
termination_by l => l.length
decreasing_by
  simp only [List.length_cons]
  omega

theorem runs_sublist :
    ∀ (l : List AnagramWord) (g : List AnagramWord), g ∈ runs l →
      g.Sublist l
  | [], g => by simp [runs]
  | a :: t, g => by
    rw [runs_cons_eq]
    intro hg
    rcases List.mem_cons.mp hg with h | h
    · rw [h]
      exact (List.takeWhile_sublist _).cons₂ a
    · have hd :
          (t.dropWhile (fun w => isAnagramOf w a)).length ≤ t.length :=
        (List.dropWhile_sublist _).length_le
      exact
        ((runs_sublist (t.dropWhile (fun w => isAnagramOf w a)) g h).trans
          (List.dropWhile_sublist _)).cons a
termination_by l => l.length
decreasing_by
  simp only [List.length_cons]
  omega

theorem exists_run_of_mem {l : List AnagramWord} {x : AnagramWord}
    (hx : x ∈ l) : ∃ g, g ∈ runs l ∧ x ∈ g := by
  have : x ∈ (runs l).flatten := by
    rw [runs_flatten]
    exact hx
  rcases List.mem_flatten.mp this with ⟨g, hg, hxg⟩
  exact ⟨g, hg, hxg⟩

theorem dropWhile_head_false {p : AnagramWord → Bool}
    {t : List AnagramWord} {b : AnagramWord} {r : List AnagramWord}
    (h : t.dropWhile p = b :: r) : p b = false := by
  have hh := List.head?_dropWhile_not p t
  rw [h] at hh
  simpa using hh

/-- In a sorted list, everything the `dropWhile` of the head's block
skips to has a signature different from the head's. -/
theorem dropWhile_sig_ne {a : AnagramWord} {t : List AnagramWord}
    (hs : (a :: t).Sorted sigLe) :
    ∀ y ∈ t.dropWhile (fun w => isAnagramOf w a),
      y.wordSorted ≠ a.wordSorted := by
  intro y hy
  rcases hd : t.dropWhile (fun w => isAnagramOf w a) with _ | ⟨b, r⟩
  · rw [hd] at hy
    exact absurd hy (List.not_mem_nil y)
  · rw [hd] at hy
    have hbne : b.wordSorted ≠ a.wordSorted := by
      have := dropWhile_head_false hd
      simpa [isAnagramOf] using this
    have hb_mem : b ∈ t := by
      have : b ∈ t.dropWhile (fun w => isAnagramOf w a) := by
        rw [hd]
        exact List.mem_cons_self b r
      exact (List.dropWhile_sublist _).subset this
    have hab : sigLe a b := List.rel_of_pairwise_cons hs hb_mem
    rcases List.mem_cons.mp hy with hyb | hyr
    · rw [hyb]
      exact hbne
    · intro hya
      have hby : sigLe b y := by
        have hsd : (b :: r).Pairwise sigLe := by
          have h1 : (b :: r).Sublist t := by
            rw [← hd]
            exact List.dropWhile_sublist _
          exact List.Pairwise.sublist h1 hs.of_cons
        exact List.rel_of_pairwise_cons hsd hyr
      have hyb' : sigLe y b := sigLe_of_eq_left hya hab
      exact hbne ((sigLe_antisymm b y hby hyb').trans hya)

/-- In a sorted list every word whose signature matches a block's
signature belongs to that block: a block captures its whole signature
class. -/
theorem runs_complete :
    ∀ (l : List AnagramWord), l.Sorted sigLe →
      ∀ g ∈ runs l, ∀ x ∈ g, ∀ y ∈ l,
        y.wordSorted = x.wordSorted → y ∈ g
  | [], _ => by simp [runs]
  | a :: t, hs => by
    rw [runs_cons_eq]
    intro g hg x hx y hy hsig
    have hsplit :
        ∀ z : AnagramWord, z ∈ t →
          z ∈ t.takeWhile (fun w => isAnagramOf w a) ∨
            z ∈ t.dropWhile (fun w => isAnagramOf w a) := by
      intro z hz
      rw [← List.takeWhile_append_dropWhile (fun w => isAnagramOf w a) t]
        at hz
      exact List.mem_append.mp hz
    have htw :
        ∀ z : AnagramWord, z ∈ t.takeWhile (fun w => isAnagramOf w a) →
          z.wordSorted = a.wordSorted := by
      intro z hz
      have hpz : isAnagramOf z a = true := by
        simpa using List.mem_takeWhile_imp hz
      exact (isAnagramOf_iff z a).mp hpz
    rcases List.mem_cons.mp hg with h | h
    · subst h
      have hxa : x.wordSorted = a.wordSorted := by
        rcases List.mem_cons.mp hx with h1 | h1
        · rw [h1]
        · exact htw x h1
      rcases List.mem_cons.mp hy with h2 | h2
      · rw [h2]
        exact List.mem_cons_self _ _
      · rcases hsplit y h2 with h3 | h3
        · exact List.mem_cons_of_mem a h3
        · exact absurd (hsig.trans hxa) (dropWhile_sig_ne hs y h3)
    · have hd :
          (t.dropWhile (fun w => isAnagramOf w a)).length ≤ t.length :=
        (List.dropWhile_sublist _).length_le
      have hsd : (t.dropWhile (fun w => isAnagramOf w a)).Sorted sigLe :=
        List.Pairwise.sublist (List.dropWhile_sublist _) hs.of_cons
      have hx_dw : x ∈ t.dropWhile (fun w => isAnagramOf w a) :=
        (runs_sublist _ g h).subset hx
      have hxa : x.wordSorted ≠ a.wordSorted :=
        dropWhile_sig_ne hs x hx_dw
      have hy_dw : y ∈ t.dropWhile (fun w => isAnagramOf w a) := by
        rcases List.mem_cons.mp hy with h2 | h2
        · exact absurd (h2 ▸ hsig).symm hxa
        · rcases hsplit y h2 with h3 | h3
          · exact absurd ((htw y h3) ▸ hsig) (Ne.symm hxa)
          · exact h3
      exact
        runs_complete (t.dropWhile (fun w => isAnagramOf w a)) hsd g h
          x hx y hy_dw hsig
termination_by l => l.length
decreasing_by
  simp only [List.length_cons]
  omega

/-
The sweep, characterized.  `sweep a false l` is the tail of an opened
line: separators and words while signatures match, then a newline and a
fresh start at the first mismatch.  `sweep a true l` — a block freshly
opened at `a` with nothing printed — writes exactly `outRuns` of the
block decomposition of `a :: l`.
-/

theorem sweep_false_spec :
    ∀ (l : List AnagramWord) (a : AnagramWord),
      sweep a false l =
        concatAll
            ((l.takeWhile (fun w => isAnagramOf w a)).map
              (fun w => ", " ++ w.word)) ++
          (match l.dropWhile (fun w => isAnagramOf w a) with
            | [] => ""
            | b :: r => "\n" ++ sweep b true r)
  | [], a => by simp [sweep, concatAll]
  | w :: t, a => by
    by_cases hw : isAnagramOf w a = true
    · rw [sweep, if_pos hw, sweep_false_spec t a]
      simp only [List.takeWhile_cons, List.dropWhile_cons, hw, if_true,
        Bool.false_eq_true, if_false, List.map_cons, concatAll]
      simp [String.append_assoc]
    · have hw' : isAnagramOf w a = false := by simpa using hw
      rw [sweep]
      simp only [hw', Bool.false_eq_true, if_false, List.takeWhile_cons,
        List.dropWhile_cons, List.map_nil, concatAll]
      rfl

theorem sweep_true_eq :
    ∀ (l : List AnagramWord) (a : AnagramWord),
      sweep a true l = outRuns (runs (a :: l))
  | [], a => by
    rw [runs_cons_eq]
    simp [sweep, runs, outRuns]
  | w :: t, a => by
    rw [runs_cons_eq]
    by_cases hw : isAnagramOf w a = true
    · rw [sweep, if_pos hw, if_pos rfl, sweep_false_spec t a]
      simp only [List.takeWhile_cons, List.dropWhile_cons, hw, if_true,
        Bool.false_eq_true, if_false]
      rcases hd : t.dropWhile (fun w => isAnagramOf w a) with _ | ⟨b, r⟩
      · simp only [runs, outRuns, lineOf, List.map_cons, concatAll,
          List.length_cons]
        have h2 : 2 ≤ (t.takeWhile (fun w => isAnagramOf w a)).length + 1 + 1 := by
          omega
        rw [if_pos h2]
        simp [String.append_assoc]
      · have hlt1 : r.length < t.length + 1 := by
          have h1 :
              (t.dropWhile (fun w => isAnagramOf w a)).length ≤ t.length :=
            (List.dropWhile_sublist _).length_le
          rw [hd] at h1
          simp only [List.length_cons] at h1
          omega
        dsimp only
        rw [sweep_true_eq r b]
        have hne : runs (b :: r) ≠ [] := by
          rw [runs_cons_eq]
          exact List.cons_ne_nil _ _
        have h2 :
            2 ≤ (a :: w :: t.takeWhile (fun w => isAnagramOf w a)).length := by
          simp only [List.length_cons]
          omega
        simp only [outRuns, if_pos h2, if_neg hne, lineOf, List.map_cons,
          concatAll]
        simp [String.append_assoc]
    · have hw' : isAnagramOf w a = false := by simpa using hw
      have hlt2 : t.length < t.length + 1 := by omega
      rw [sweep]
      simp only [hw', Bool.false_eq_true, if_false, if_pos rfl,
        List.takeWhile_cons, List.dropWhile_cons]
      rw [sweep_true_eq t w]
      have hout :
          outRuns ([a] :: runs (w :: t)) = outRuns (runs (w :: t)) := by
        simp [outRuns]
      rw [← hout]
      rfl
termination_by l => l.length
decreasing_by
  all_goals simp only [List.length_cons]
  all_goals omega

/-
The sentinel and the full sweep.
-/

theorem sentinel_wordSorted (cfg : Config) :
    (sentinel cfg).wordSorted = "" := by
  cases hc : cfg.ignoreCapitals <;>
    simp [sentinel, anagramWordMk_wordSorted, hc] <;> rfl

theorem not_anagram_of_sentinel {cfg : Config} {w : AnagramWord}
    (h : w.wordSorted ≠ "") : isAnagramOf w (sentinel cfg) = false := by
  simp [isAnagramOf, sentinel_wordSorted, h]

/-- The master characterization: for any validated configuration, the
text the sweep writes is `outRuns` of the block decomposition of the
sorted filtered words. -/
theorem anagramsOutput_eq_outRuns (cfg : Config) (tokens : List String)
    (h2 : 2 ≤ cfg.minLetters) :
    anagramsOutput cfg tokens =
      outRuns (runs (sortWords (buildWords cfg tokens))) := by
  unfold anagramsOutput
  rcases hS : sortWords (buildWords cfg tokens) with _ | ⟨w, rest⟩
  · simp [sweep, runs, outRuns]
  · have hw_mem : w ∈ buildWords cfg tokens := by
      have hws : w ∈ sortWords (buildWords cfg tokens) := by
        rw [hS]
        exact List.mem_cons_self _ _
      exact mem_sortWords.mp hws
    have hsig : w.wordSorted ≠ "" := sig_ne_empty_of_mem h2 hw_mem
    have hfalse : isAnagramOf w (sentinel cfg) = false :=
      not_anagram_of_sentinel hsig
    rw [sweep]
    simp only [hfalse, Bool.false_eq_true, if_false, if_pos rfl]
    rw [sweep_true_eq rest w]
    rfl

/-
Helpers for membership in emitted groups.
-/

theorem mem_emittedGroups {l : List AnagramWord}
    {g : List AnagramWord} :
    g ∈ emittedGroups l ↔ g ∈ runs l ∧ 2 ≤ g.length := by
  unfold emittedGroups
  rw [List.mem_filter]
  simp

theorem two_le_length_of_mem_ne {g : List AnagramWord}
    {x y : AnagramWord} (hx : x ∈ g) (hy : y ∈ g) (hxy : x ≠ y) :
    2 ≤ g.length := by
  match g with
  | [] => exact absurd hx (List.not_mem_nil x)
  | [z] =>
    rw [List.mem_singleton] at hx hy
    exact absurd (hx.trans hy.symm) hxy
  | z :: v :: t => simp [List.length_cons]

/-- A word whose signature occurs exactly once in the list belongs to
no emitted group: its block is the singleton block, which is skipped. -/
theorem sig_unique_not_in_group {l : List AnagramWord}
    {w : AnagramWord}
    (hu : (l.map (fun v => v.wordSorted)).count w.wordSorted = 1) :
    ∀ g ∈ emittedGroups l, w ∉ g := by
  intro g hg hwg
  rcases mem_emittedGroups.mp hg with ⟨hrun, hlen⟩
  have hsub : g.Sublist l := runs_sublist l g hrun
  have hmap :
      (g.map (fun v => v.wordSorted)).Sublist
        (l.map (fun v => v.wordSorted)) := hsub.map _
  have hconst : ∀ s ∈ g.map (fun v => v.wordSorted), w.wordSorted = s := by
    intro s hs
    rcases List.mem_map.mp hs with ⟨x, hx, rfl⟩
    exact runs_sig_of_mem l g hrun w hwg x hx
  have hcount :
      (g.map (fun v => v.wordSorted)).count w.wordSorted =
        (g.map (fun v => v.wordSorted)).length :=
    List.count_eq_length.mpr hconst
  have hle :
      (g.map (fun v => v.wordSorted)).count w.wordSorted ≤
        (l.map (fun v => v.wordSorted)).count w.wordSorted :=
    hmap.count_le _
  rw [hcount, List.length_map] at hle
  omega

/-
The claims.
-/

/-- C4: the signature of a word is its characters — lowercased first
exactly when `ignoreCapitals` is set — sorted ascending by code point:
the cached string is sorted under `Char.toNat` and is a permutation of
the characters of the (optionally lowercased) text.  The computation is
a pure function of the text and the flag, so determinism is inherent in
the embedding. -/
theorem C4_signature_sorted_perm (ic : Bool) (w : String) :
    ((anagramWordMk ic w).wordSorted.toList.Sorted
        (fun a b : Char => a.toNat ≤ b.toNat))
    ∧ ((anagramWordMk ic w).wordSorted.toList.Perm
        (if ic then lowerStr w else w).toList) := by
  rw [anagramWordMk_wordSorted, sortLetters_toList]
  constructor
  · have hs :
        (List.insertionSort (fun a b : Char => a ≤ b)
            (if ic then lowerStr w else w).toList).Sorted
          (fun a b : Char => a ≤ b) :=
      List.sorted_insertionSort _ _
    exact hs.imp (fun hab => by exact_mod_cast hab)
  · exact List.perm_insertionSort _ _

/-- C6: a configuration with fewer than two minimum letters makes the
program fail with the fatal message, and the failure is independent of
the token list — no word list is consulted and no output is
produced. -/
theorem C6_min_letters_fail_fast (cfg : Config) (tokens : List String)
    (h : cfg.minLetters < 2) :
    runProgram cfg tokens =
        Except.error "The minimum number of letters must be at least two."
    ∧ ∀ tokens2 : List String,
        runProgram cfg tokens = runProgram cfg tokens2 := by
  unfold runProgram
  rw [if_pos h]
  exact ⟨rfl, fun tokens2 => by rw [if_pos h]⟩

/-- C6 witness: with one minimum letter the program errors out, whatever
the word list holds. -/
theorem C6_min_letters_fail_fast_witness :
    runProgram ⟨1, false, false⟩ ["word"] =
        Except.error "The minimum number of letters must be at least two."
    ∧ runProgram ⟨1, false, false⟩ ["word"] =
        runProgram ⟨1, false, false⟩ ["a", "bc"] :=
  ⟨(C6_min_letters_fail_fast ⟨1, false, false⟩ ["word"] (by decide)).1,
    (C6_min_letters_fail_fast ⟨1, false, false⟩ ["word"] (by decide)).2
      ["a", "bc"]⟩

/-- C7: the filter drops every token shorter than `minLetters` and
keeps every token at least that long, subject only to the
capitalization filter. -/
theorem C7_min_length_filter (cfg : Config) (w : String) :
    (w.length < cfg.minLetters → keep cfg w = false)
    ∧ (cfg.minLetters ≤ w.length →
        keep cfg w = !(cfg.excludeCapitals && firstIsUpper w)) := by
  constructor
  · intro h
    unfold keep
    rw [if_pos h]
  · intro h
    unfold keep
    rw [if_neg (not_lt.mpr h)]
    cases hb : (cfg.excludeCapitals && firstIsUpper w) <;> simp [hb]

/-- C7 witness: with the default minimum of four letters, a
three-letter token is dropped and a four-letter one is kept. -/
theorem C7_min_length_filter_witness :
    keep ⟨4, false, false⟩ "abc" = false
    ∧ keep ⟨4, false, false⟩ "abcd" = true :=
  ⟨(C7_min_length_filter ⟨4, false, false⟩ "abc").1 (by decide),
    by
      have h := (C7_min_length_filter ⟨4, false, false⟩ "abcd").2 (by decide)
      simpa using h⟩

/-- C8: with `excludeCapitals` set, a token opening with an uppercase
letter is dropped; one opening otherwise is kept exactly when it is
long enough; and the filter never consults `ignoreCapitals`. -/
theorem C8_exclude_capitals (cfg : Config) (w : String)
    (hx : cfg.excludeCapitals = true) :
    (firstIsUpper w = true → keep cfg w = false)
    ∧ (firstIsUpper w = false →
        keep cfg w = !(w.length < cfg.minLetters))
    ∧ (∀ b : Bool,
        keep ⟨cfg.minLetters, b, cfg.excludeCapitals⟩ w = keep cfg w) := by
  refine ⟨?_, ?_, fun b => rfl⟩
  · intro hu
    unfold keep
    by_cases hl : w.length < cfg.minLetters
    · rw [if_pos hl]
    · rw [if_neg hl, if_pos (by simp [hx, hu])]
  · intro hu
    unfold keep
    by_cases hl : w.length < cfg.minLetters
    · simp [hl]
    · simp [hl, hu]

/-- C8 witness: `"Apple"` is dropped and `"apple"` kept under
`excludeCapitals`, and flipping `ignoreCapitals` changes nothing. -/
theorem C8_exclude_capitals_witness :
    keep ⟨2, false, true⟩ "Apple" = false
    ∧ keep ⟨2, false, true⟩ "apple" = true
    ∧ keep ⟨2, true, true⟩ "Apple" = keep ⟨2, false, true⟩ "Apple" :=
  ⟨(C8_exclude_capitals ⟨2, false, true⟩ "Apple" rfl).1 (by decide),
    by
      have h :=
        (C8_exclude_capitals ⟨2, false, true⟩ "apple" rfl).2.1 (by decide)
      simpa using h,
    (C8_exclude_capitals ⟨2, false, true⟩ "Apple" rfl).2.2 true⟩

/-- C9: when every token is shorter than the (validated) minimum, the
filtered list is empty and the program succeeds with empty output. -/
theorem C9_empty_filtered_ok (cfg : Config) (tokens : List String)
    (h2 : 2 ≤ cfg.minLetters)
    (hall : ∀ t ∈ tokens, t.length < cfg.minLetters) :
    runProgram cfg tokens = Except.ok "" := by
  have hb : buildWords cfg tokens = [] := by
    unfold buildWords
    have hf : tokens.filter (keep cfg) = [] := by
      rw [List.filter_eq_nil_iff]
      intro t ht
      simp [keep, hall t ht]
    rw [hf]
    rfl
  unfold runProgram
  rw [if_neg (by omega)]
  unfold anagramsOutput
  rw [hb]
  rfl

/-- C9 witness: two short tokens under the default minimum yield a
successful, empty run. -/
theorem C9_empty_filtered_ok_witness :
    runProgram ⟨4, false, false⟩ ["ab", "abc"] = Except.ok "" :=
  C9_empty_filtered_ok ⟨4, false, false⟩ ["ab", "abc"] (by decide)
    (by decide)

/-- C1 counterexample: the claim says a filtered word with a unique
signature is emitted as a line of its own, `"banana"` in particular.
In fact the run on the sample input produces the single line
`"listen, silent, enlist"` — a newline-free string different from
`"banana"` — so no `"banana"` line (and no singleton group) exists. -/
theorem C1_singleton_suppressed_cex :
    runProgram ⟨4, false, false⟩ ["listen", "silent", "enlist", "banana"] =
        Except.ok "listen, silent, enlist"
    ∧ ("listen, silent, enlist" : String).toList.count '\n' = 0
    ∧ ("listen, silent, enlist" : String) ≠ "banana" :=
  ⟨rfl, by decide, by decide⟩

/-- C1 (amended): a filtered word whose signature no other filtered
word shares is never emitted — it belongs to no emitted group, because
its block is a skipped singleton — and on the sample input the output
is exactly the one line `"listen, silent, enlist"`, with `"banana"`
absent. -/
theorem C1_unique_sig_dropped :
    (∀ (cfg : Config) (tokens : List String) (w : AnagramWord),
        ((buildWords cfg tokens).map (fun v => v.wordSorted)).count
            w.wordSorted = 1 →
        ∀ g ∈ emittedGroups (sortWords (buildWords cfg tokens)), w ∉ g)
    ∧ runProgram ⟨4, false, false⟩ ["listen", "silent", "enlist", "banana"] =
        Except.ok "listen, silent, enlist" := by
  constructor
  · intro cfg tokens w hu
    apply sig_unique_not_in_group
    have hperm :
        ((sortWords (buildWords cfg tokens)).map
            (fun v => v.wordSorted)).Perm
          ((buildWords cfg tokens).map (fun v => v.wordSorted)) :=
      (sortWords_perm _).map _
    rw [hperm.count_eq]
    exact hu
  · rfl

/-- C1 witness: `"banana"`, alone with its signature, is not in the
sample's emitted group. -/
theorem C1_unique_sig_dropped_witness :
    (⟨"banana", "aaabnn"⟩ : AnagramWord) ∉
      ([⟨"listen", "eilnst"⟩, ⟨"silent", "eilnst"⟩,
        ⟨"enlist", "eilnst"⟩] : List AnagramWord) :=
  C1_unique_sig_dropped.1 ⟨4, false, false⟩
    ["listen", "silent", "enlist", "banana"] ⟨"banana", "aaabnn"⟩
    (by decide)
    [⟨"listen", "eilnst"⟩, ⟨"silent", "eilnst"⟩, ⟨"enlist", "eilnst"⟩]
    (by decide)

/-- C2 counterexample: the claim says every emitted group's line is
newline-terminated and the final pending group is flushed with its
newline.  On `["abcd", "bcda"]` one group is emitted, yet the whole
output is the newline-free string `"abcd, bcda"`. -/
theorem C2_final_newline_cex :
    anagramsOutput ⟨4, false, false⟩ ["abcd", "bcda"] = "abcd, bcda"
    ∧ ("abcd, bcda" : String).toList.count '\n' = 0
    ∧ emittedGroups
        (sortWords (buildWords ⟨4, false, false⟩ ["abcd", "bcda"])) =
        [[⟨"abcd", "abcd"⟩, ⟨"bcda", "abcd"⟩]] :=
  ⟨rfl, by decide, by decide⟩

/-- C2 (amended): each emitted group is written as its member words
joined by `", "` in sorted-sequence order, but its terminating newline
is written only when the next block starts; so consecutive emitted
groups are separated by single newlines, a trailing newline appears
exactly when a skipped block follows the last emitted group, and the
sweep flushes nothing at its end.  Formally the sweep output is
`outRuns` of the block decomposition. -/
theorem C2_group_lines (cfg : Config) (tokens : List String)
    (h2 : 2 ≤ cfg.minLetters) :
    anagramsOutput cfg tokens =
      outRuns (runs (sortWords (buildWords cfg tokens))) :=
  anagramsOutput_eq_outRuns cfg tokens h2

/-- C2 witness: on `["abcd", "bcda", "zzzz"]` the characterization
applies and evaluates to `"abcd, bcda\n"` — here a trailing newline
does appear, written when the skipped `"zzzz"` block started. -/
theorem C2_group_lines_witness :
    anagramsOutput ⟨4, false, false⟩ ["abcd", "bcda", "zzzz"] =
        outRuns
          (runs (sortWords (buildWords ⟨4, false, false⟩
            ["abcd", "bcda", "zzzz"])))
    ∧ outRuns
        (runs (sortWords (buildWords ⟨4, false, false⟩
          ["abcd", "bcda", "zzzz"]))) = "abcd, bcda\n" :=
  ⟨C2_group_lines ⟨4, false, false⟩ ["abcd", "bcda", "zzzz"] (by decide),
    by decide⟩

/-- C3: `is_anagram_of` holds exactly when the signatures are equal;
the relation is reflexive, symmetric and transitive; and two distinct
filtered words land in a common emitted group exactly when the relation
holds between them. -/
theorem C3_anagram_equivalence :
    (∀ a b : AnagramWord,
        isAnagramOf a b = true ↔ a.wordSorted = b.wordSorted)
    ∧ (∀ a : AnagramWord, isAnagramOf a a = true)
    ∧ (∀ a b : AnagramWord,
        isAnagramOf a b = true → isAnagramOf b a = true)
    ∧ (∀ a b c : AnagramWord,
        isAnagramOf a b = true → isAnagramOf b c = true →
          isAnagramOf a c = true)
    ∧ (∀ (cfg : Config) (tokens : List String) (w1 w2 : AnagramWord),
        w1 ∈ sortWords (buildWords cfg tokens) →
        w2 ∈ sortWords (buildWords cfg tokens) →
        w1 ≠ w2 →
        ((∃ g, g ∈ emittedGroups (sortWords (buildWords cfg tokens)) ∧
            w1 ∈ g ∧ w2 ∈ g) ↔ isAnagramOf w1 w2 = true)) := by
  refine ⟨isAnagramOf_iff, ?_, ?_, ?_, ?_⟩
  · intro a
    exact (isAnagramOf_iff a a).mpr rfl
  · intro a b h
    exact (isAnagramOf_iff b a).mpr ((isAnagramOf_iff a b).mp h).symm
  · intro a b c h1 h2
    exact (isAnagramOf_iff a c).mpr
      (((isAnagramOf_iff a b).mp h1).trans ((isAnagramOf_iff b c).mp h2))
  · intro cfg tokens w1 w2 h1 h2 hne
    constructor
    · rintro ⟨g, hg, hg1, hg2⟩
      rcases mem_emittedGroups.mp hg with ⟨hrun, _⟩
      exact (isAnagramOf_iff w1 w2).mpr
        (runs_sig_of_mem _ g hrun w1 hg1 w2 hg2)
    · intro hiso
      rcases exists_run_of_mem h1 with ⟨g, hgr, hw1g⟩
      have hw2g : w2 ∈ g :=
        runs_complete _ (sortWords_sorted _) g hgr w1 hw1g w2 h2
          ((isAnagramOf_iff w1 w2).mp hiso).symm
      exact ⟨g,
        mem_emittedGroups.mpr
          ⟨hgr, two_le_length_of_mem_ne hw1g hw2g hne⟩,
        hw1g, hw2g⟩

/-- C3 witness: `"listen"` and `"silent"` share the sample's emitted
group, so the relation holds between them. -/
theorem C3_anagram_equivalence_witness :
    isAnagramOf ⟨"listen", "eilnst"⟩ ⟨"silent", "eilnst"⟩ = true :=
  (C3_anagram_equivalence.2.2.2.2 ⟨4, false, false⟩
      ["listen", "silent", "enlist", "banana"]
      ⟨"listen", "eilnst"⟩ ⟨"silent", "eilnst"⟩ (by decide) (by decide)
      (by decide)).mp
    ⟨[⟨"listen", "eilnst"⟩, ⟨"silent", "eilnst"⟩, ⟨"enlist", "eilnst"⟩],
      by decide, by decide, by decide⟩

/-- C5: in the comparator-sorted sequence, words of equal signature are
contiguous: if `a` and `c` carry the same signature, any `b` lying
between them carries it too. -/
theorem C5_equal_sig_contiguous (cfg : Config) (tokens : List String)
    (l1 l2 l3 l4 : List AnagramWord) (a b c : AnagramWord)
    (heq : sortWords (buildWords cfg tokens) =
      l1 ++ a :: (l2 ++ b :: (l3 ++ c :: l4)))
    (hac : a.wordSorted = c.wordSorted) :
    b.wordSorted = a.wordSorted := by
  have hsub : [a, b, c].Sublist (sortWords (buildWords cfg tokens)) := by
    rw [heq]
    have s1 : [c].Sublist (c :: l4) := (List.nil_sublist l4).cons₂ c
    have s2 : [c].Sublist (l3 ++ c :: l4) :=
      s1.trans (List.sublist_append_right l3 (c :: l4))
    have s3 : [b, c].Sublist (b :: (l3 ++ c :: l4)) := s2.cons₂ b
    have s4 : [b, c].Sublist (l2 ++ b :: (l3 ++ c :: l4)) :=
      s3.trans (List.sublist_append_right l2 _)
    have s5 : [a, b, c].Sublist (a :: (l2 ++ b :: (l3 ++ c :: l4))) :=
      s4.cons₂ a
    exact s5.trans (List.sublist_append_right l1 _)
  have hp : [a, b, c].Pairwise sigLe :=
    List.Pairwise.sublist hsub (sortWords_sorted _)
  have hab : sigLe a b :=
    List.rel_of_pairwise_cons hp (List.mem_cons_self b [c])
  have hbc : sigLe b c :=
    List.rel_of_pairwise_cons hp.of_cons (List.mem_cons_self c [])
  have hba : sigLe b a := sigLe_of_eq_right hac.symm hbc
  exact sigLe_antisymm b a hba hab

/-- C5 witness: in the sample's sorted sequence
`[banana, listen, silent, enlist]`, `"silent"` sits between the
equal-signature `"listen"` and `"enlist"` and shares their
signature. -/
theorem C5_equal_sig_contiguous_witness :
    (⟨"silent", "eilnst"⟩ : AnagramWord).wordSorted =
      (⟨"listen", "eilnst"⟩ : AnagramWord).wordSorted :=
  C5_equal_sig_contiguous ⟨4, false, false⟩
    ["listen", "silent", "enlist", "banana"]
    [⟨"banana", "aaabnn"⟩] [] [] []
    ⟨"listen", "eilnst"⟩ ⟨"silent", "eilnst"⟩ ⟨"enlist", "eilnst"⟩
    (by decide) rfl

/-- C10: under a validated configuration the sentinel's signature is
the empty string, every filtered word has a non-empty signature and so
is never an anagram of the sentinel, and the first sorted word always
takes the start-new-group branch: the sweep on `w :: rest` from the
sentinel state equals the sweep on `rest` from the state opened at
`w`, so the sentinel's text can never be printed by a match. -/
theorem C10_sentinel_safe (cfg : Config) (tokens : List String)
    (h2 : 2 ≤ cfg.minLetters) :
    ((sentinel cfg).wordSorted = "")
    ∧ (∀ w ∈ buildWords cfg tokens,
        w.wordSorted ≠ "" ∧ isAnagramOf w (sentinel cfg) = false)
    ∧ (∀ (w : AnagramWord) (rest : List AnagramWord),
        sortWords (buildWords cfg tokens) = w :: rest →
        anagramsOutput cfg tokens = sweep w true rest) := by
  refine ⟨sentinel_wordSorted cfg, ?_, ?_⟩
  · intro w hw
    have hs := sig_ne_empty_of_mem h2 hw
    exact ⟨hs, not_anagram_of_sentinel hs⟩
  · intro w rest heq
    have hw_mem : w ∈ buildWords cfg tokens := by
      have hws : w ∈ sortWords (buildWords cfg tokens) := by
        rw [heq]
        exact List.mem_cons_self _ _
      exact mem_sortWords.mp hws
    have hsig := sig_ne_empty_of_mem h2 hw_mem
    unfold anagramsOutput
    rw [heq, sweep]
    simp only [not_anagram_of_sentinel hsig, Bool.false_eq_true, if_false,
      if_pos rfl]
    rfl

/-- C10 witness: on the sample input, `"banana"` is no anagram of the
sentinel, and the sweep indeed proceeds from the state opened at the
first sorted word. -/
theorem C10_sentinel_safe_witness :
    isAnagramOf ⟨"banana", "aaabnn"⟩ (sentinel ⟨4, false, false⟩) = false
    ∧ anagramsOutput ⟨4, false, false⟩
        ["listen", "silent", "enlist", "banana"] =
        sweep ⟨"banana", "aaabnn"⟩ true
          [⟨"listen", "eilnst"⟩, ⟨"silent", "eilnst"⟩,
            ⟨"enlist", "eilnst"⟩] :=
  ⟨((C10_sentinel_safe ⟨4, false, false⟩
        ["listen", "silent", "enlist", "banana"] (by decide)).2.1
      ⟨"banana", "aaabnn"⟩ (by decide)).2,
    (C10_sentinel_safe ⟨4, false, false⟩
        ["listen", "silent", "enlist", "banana"] (by decide)).2.2
      ⟨"banana", "aaabnn"⟩
      [⟨"listen", "eilnst"⟩, ⟨"silent", "eilnst"⟩,
        ⟨"enlist", "eilnst"⟩]
      (by decide)⟩

end Anagrams
